import Mathlib

/-!
Verification of the wavebuilder signal core: the time-domain `Waveform`
buffer, the `FrequencySpectrum` harmonic series, the bidirectional
`WaveformTransform` engine, and the undo/redo `HistoryManager`.

The JavaScript source is shallowly embedded: 32-bit-float sample values
are modelled as real numbers, `Float32Array` buffers as lists of reals,
thrown errors as `Except` values, and in-place mutation as functions
returning the updated structure. Deep cloning of plain values is the
identity in this pure model. The `fundamentalFrequency` field of
`FrequencySpectrum` is informational only (never read by any modelled
operation) and is omitted.
-/

noncomputable section

/-- Error conditions of the core: `invalidLength` for constructing a
waveform whose sample count is not a power of two, `outOfRange` for an
index outside the valid bounds. These model the two classes of
exceptions thrown by the source. -/
inductive WaveError where
  | invalidLength
  | outOfRange
deriving DecidableEq

/-- Clamp of the source, written as it appears in the code:
Math.max(lo, Math.min(hi, x)). -/
def clamp (lo hi x : ℝ) : ℝ := max lo (min hi x)

/-- JavaScript truncation toward zero, as used by the JS remainder
operator on numbers. -/
def jsTrunc (x : ℝ) : ℤ := if 0 ≤ x then ⌊x⌋ else ⌈x⌉

/-- The JavaScript remainder operator on real numbers:
x % y = x - y * trunc(x / y). The result keeps the sign of `x`. -/
def jsMod (x y : ℝ) : ℝ := x - y * (jsTrunc (x / y) : ℝ)

/-- A single cycle of time-domain audio data (class Waveform).
`samples` models the backing Float32Array; its length always equals
`sampleRate`, which the source guarantees by construction. -/
structure Waveform where
  sampleRate : ℕ
  samples : List ℝ
  length_eq : samples.length = sampleRate

/-- isPowerOfTwo of the source: n > 0 && (n & (n - 1)) === 0. -/
def Waveform.isPowerOfTwo (n : ℕ) : Bool :=
  decide (0 < n) && (n &&& (n - 1) == 0)

/-- The Waveform constructor: rejects a sample count that is not a
power of two, otherwise allocates a zero-filled buffer of that length. -/
def Waveform.make (sampleRate : ℕ) : Except WaveError Waveform :=
  if Waveform.isPowerOfTwo sampleRate then
    .ok ⟨sampleRate, List.replicate sampleRate 0, by simp⟩
  else
    .error .invalidLength

/-- Waveform.getSample: bounds-checked read. The index is an integer to
model arbitrary JS number indices. -/
def Waveform.getSample (w : Waveform) (index : ℤ) : Except WaveError ℝ :=
  if index < 0 ∨ (w.sampleRate : ℤ) ≤ index then .error .outOfRange
  else .ok (w.samples.getD index.toNat 0)

/-- Waveform.setSample: bounds-checked write; the value is clamped into
[-1, 1] before storing and never rejected. -/
def Waveform.setSample (w : Waveform) (index : ℤ) (value : ℝ) :
    Except WaveError Waveform :=
  if index < 0 ∨ (w.sampleRate : ℤ) ≤ index then .error .outOfRange
  else .ok ⟨w.sampleRate, w.samples.set index.toNat (clamp (-1) 1 value),
            by rw [List.length_set]; exact w.length_eq⟩

/-- Waveform.clone: a deep copy is the identity in the pure model. -/
def Waveform.clone (w : Waveform) : Waveform := w

/-- The maximum-absolute-sample scan of Waveform.normalize:
max = 0; for each sample s, max = Math.max(max, Math.abs(s)). -/
def Waveform.maxAbs (w : Waveform) : ℝ :=
  w.samples.foldl (fun m s => max m |s|) 0

/-- Waveform.normalize: if the maximum absolute sample is nonzero and
not already 1, divide every sample by it. -/
def Waveform.normalize (w : Waveform) : Waveform :=
  if 0 < w.maxAbs ∧ w.maxAbs ≠ 1 then
    ⟨w.sampleRate, w.samples.map (fun s => s / w.maxAbs),
     by rw [List.length_map]; exact w.length_eq⟩
  else w

/-- Waveform.smooth: no-op unless 0 < amount ≤ 1; otherwise each sample
becomes curr * (1 - amount) + (prev + next) * 0.5 * amount, with the
neighbours taken circularly exactly as the source indexes them. -/
def Waveform.smooth (w : Waveform) (amount : ℝ) : Waveform :=
  if amount ≤ 0 ∨ 1 < amount then w
  else
    ⟨w.sampleRate,
     (List.range w.sampleRate).map (fun (i : ℕ) =>
       let prev := w.samples.getD (((i : ℤ) - 1 + (w.sampleRate : ℤ)) %
         (w.sampleRate : ℤ)).toNat 0
       let curr := w.samples.getD i 0
       let next := w.samples.getD ((i + 1) % w.sampleRate) 0
       curr * (1 - amount) + (prev + next) * 0.5 * amount),
     by simp⟩

/-- One harmonic of a spectrum: an (amplitude, phase) pair. -/
structure Harmonic where
  amplitude : ℝ
  phase : ℝ
deriving DecidableEq

/-- A frequency-domain harmonic series (class FrequencySpectrum); the
harmonics list always has length `harmonicCount`. -/
structure FrequencySpectrum where
  harmonicCount : ℕ
  harmonics : List Harmonic
  length_eq : harmonics.length = harmonicCount

/-- The FrequencySpectrum constructor: every harmonic starts at
amplitude 0, phase 0. -/
def FrequencySpectrum.make (harmonicCount : ℕ) : FrequencySpectrum :=
  ⟨harmonicCount, List.replicate harmonicCount ⟨0, 0⟩, by simp⟩

/-- The harmonic value stored by FrequencySpectrum.setHarmonic:
amplitude is clamped into [0, 1], phase is reduced with the JS
remainder phase % (Math.PI * 2). -/
def setHarmonicData (amplitude phase : ℝ) : Harmonic :=
  ⟨clamp 0 1 amplitude, jsMod phase (Real.pi * 2)⟩

/-- FrequencySpectrum.setHarmonic: bounds-checked write of a harmonic,
storing `setHarmonicData amplitude phase`. -/
def FrequencySpectrum.setHarmonic (sp : FrequencySpectrum) (index : ℤ)
    (amplitude phase : ℝ) : Except WaveError FrequencySpectrum :=
  if index < 0 ∨ (sp.harmonicCount : ℤ) ≤ index then .error .outOfRange
  else .ok ⟨sp.harmonicCount,
            sp.harmonics.set index.toNat (setHarmonicData amplitude phase),
            by rw [List.length_set]; exact sp.length_eq⟩

/-- FrequencySpectrum.clear: resets every harmonic to amplitude 0,
phase 0. -/
def FrequencySpectrum.clear (sp : FrequencySpectrum) : FrequencySpectrum :=
  ⟨sp.harmonicCount, sp.harmonics.map (fun _ => ⟨0, 0⟩),
   by rw [List.length_map]; exact sp.length_eq⟩

/-- The amplitude sum scanned by FrequencySpectrum.normalize. -/
def FrequencySpectrum.sumAmplitudes (sp : FrequencySpectrum) : ℝ :=
  sp.harmonics.foldl (fun s h => s + h.amplitude) 0

/-- FrequencySpectrum.normalize: if the amplitude sum is nonzero and not
already 1, divide every amplitude by it (phases untouched). -/
def FrequencySpectrum.normalize (sp : FrequencySpectrum) : FrequencySpectrum :=
  if 0 < sp.sumAmplitudes ∧ sp.sumAmplitudes ≠ 1 then
    ⟨sp.harmonicCount,
     sp.harmonics.map (fun h => ⟨h.amplitude / sp.sumAmplitudes, h.phase⟩),
     by rw [List.length_map]; exact sp.length_eq⟩
  else sp

/-- FrequencySpectrum.clone: identity in the pure model. -/
def FrequencySpectrum.clone (sp : FrequencySpectrum) : FrequencySpectrum := sp

/-- JavaScript Math.atan2(y, x), modelled as the argument of the complex
number x + y*i; it lies in (-π, π] and atan2(0, 0) = 0. -/
def atan2 (y x : ℝ) : ℝ := Complex.arg ⟨x, y⟩

/-- The real accumulator of the DFT loop in
WaveformTransform.toFrequencyDomain, already divided by N. -/
def dftReal (w : Waveform) (k : ℕ) : ℝ :=
  (∑ n ∈ Finset.range w.sampleRate,
    w.samples.getD n 0 *
      Real.cos ((-2 * Real.pi * ((k : ℝ) + 1) * (n : ℝ)) / (w.sampleRate : ℝ))) /
    (w.sampleRate : ℝ)

/-- The imaginary accumulator of the DFT loop in
WaveformTransform.toFrequencyDomain, already divided by N. -/
def dftImag (w : Waveform) (k : ℕ) : ℝ :=
  (∑ n ∈ Finset.range w.sampleRate,
    w.samples.getD n 0 *
      Real.sin ((-2 * Real.pi * ((k : ℝ) + 1) * (n : ℝ)) / (w.sampleRate : ℝ))) /
    (w.sampleRate : ℝ)

/-- WaveformTransform.toFrequencyDomain: for each harmonic index k the
source computes real and imag, then calls
setHarmonic(k, 2 * sqrt(real*real + imag*imag), atan2(imag, real)) with
k always in range, which stores `setHarmonicData` of those values. -/
def WaveformTransform.toFrequencyDomain (w : Waveform) (harmonicCount : ℕ) :
    FrequencySpectrum :=
  ⟨harmonicCount,
   (List.range harmonicCount).map (fun k =>
     setHarmonicData
       (2 * Real.sqrt (dftReal w k * dftReal w k + dftImag w k * dftImag w k))
       (atan2 (dftImag w k) (dftReal w k))),
   by simp⟩

/-- The additive-synthesis accumulator of WaveformTransform.toTimeDomain
at output sample index s: contributions are added only for harmonics
with amplitude > 0, at angle 2π * (harmonic+1) * s / sampleRate + phase. -/
def synthValue (sp : FrequencySpectrum) (sampleRate s : ℕ) : ℝ :=
  ∑ h ∈ Finset.range sp.harmonicCount,
    (if 0 < (sp.harmonics.getD h ⟨0, 0⟩).amplitude then
      (sp.harmonics.getD h ⟨0, 0⟩).amplitude *
        Real.sin ((2 * Real.pi * ((h : ℝ) + 1) * (s : ℝ)) / (sampleRate : ℝ) +
          (sp.harmonics.getD h ⟨0, 0⟩).phase)
    else 0)

/-- WaveformTransform.toTimeDomain: constructs a Waveform of the
requested sample count (propagating the power-of-two failure), stores
each additive-synthesis value through setSample — which clamps it into
[-1, 1] — and finally applies Waveform.normalize. -/
def WaveformTransform.toTimeDomain (sp : FrequencySpectrum) (sampleRate : ℕ) :
    Except WaveError Waveform :=
  (Waveform.make sampleRate).map (fun _ =>
    Waveform.normalize
      ⟨sampleRate,
       (List.range sampleRate).map (fun s => clamp (-1) 1 (synthValue sp sampleRate s)),
       by simp⟩)

/-- WaveformTransform.applySmoothing: clones the input and smooths the
clone, leaving the input untouched. -/
def WaveformTransform.applySmoothing (w : Waveform) (amount : ℝ) : Waveform :=
  (w.clone).smooth amount

/-- The undo/redo manager (class HistoryManager), generic over the
snapshot type; deep cloning of snapshots is the identity in the pure
model, and the change-notification side effect is not modelled. -/
structure HistoryManager (α : Type) where
  maxHistory : ℕ
  history : List α
  currentIndex : ℤ

/-- The HistoryManager constructor: empty history, currentIndex -1. -/
def HistoryManager.make (α : Type) (maxHistory : ℕ) : HistoryManager α :=
  ⟨maxHistory, [], -1⟩

/-- HistoryManager.push: truncate to currentIndex+1 entries, append the
new state, then either evict the oldest entry (when over capacity,
leaving currentIndex alone) or advance currentIndex. -/
def HistoryManager.push {α : Type} (h : HistoryManager α) (state : α) :
    HistoryManager α :=
  let appended := h.history.take (h.currentIndex + 1).toNat ++ [state]
  if h.maxHistory < appended.length then
    ⟨h.maxHistory, appended.drop 1, h.currentIndex⟩
  else
    ⟨h.maxHistory, appended, h.currentIndex + 1⟩

/-- HistoryManager.canUndo: currentIndex > 0. -/
def HistoryManager.canUndo {α : Type} (h : HistoryManager α) : Bool :=
  decide (0 < h.currentIndex)

/-- HistoryManager.canRedo: currentIndex < history.length - 1. -/
def HistoryManager.canRedo {α : Type} (h : HistoryManager α) : Bool :=
  decide (h.currentIndex < (h.history.length : ℤ) - 1)

/-- HistoryManager.undo: when permitted, decrement currentIndex and
return the snapshot now at currentIndex together with the updated
manager; otherwise return nothing and the manager unchanged. -/
def HistoryManager.undo {α : Type} (h : HistoryManager α) :
    Option α × HistoryManager α :=
  if h.canUndo then
    ((h.history.get? (h.currentIndex - 1).toNat),
     ⟨h.maxHistory, h.history, h.currentIndex - 1⟩)
  else (none, h)

/-- HistoryManager.redo: when permitted, increment currentIndex and
return the snapshot now at currentIndex together with the updated
manager; otherwise return nothing and the manager unchanged. -/
def HistoryManager.redo {α : Type} (h : HistoryManager α) :
    Option α × HistoryManager α :=
  if h.canRedo then
    ((h.history.get? (h.currentIndex + 1).toNat),
     ⟨h.maxHistory, h.history, h.currentIndex + 1⟩)
  else (none, h)

/-- HistoryManager.clear: empty the history, reset currentIndex to -1. -/
def HistoryManager.clear {α : Type} (h : HistoryManager α) : HistoryManager α :=
  ⟨h.maxHistory, [], -1⟩

/-- Well-formedness of a history state, maintained by every reachable
state of the source: the cursor stays within [-1, history.length). -/
def HistoryManager.WF {α : Type} (h : HistoryManager α) : Prop :=
  -1 ≤ h.currentIndex ∧ h.currentIndex < (h.history.length : ℤ)

/-- The spectra reachable through the public FrequencySpectrum
operations: construction, successful setHarmonic, clear, normalize,
clone, and the output of WaveformTransform.toFrequencyDomain. -/
inductive SpectrumReachable : FrequencySpectrum → Prop where
  | make (n : ℕ) : SpectrumReachable (FrequencySpectrum.make n)
  | set (sp sp2 : FrequencySpectrum) (index : ℤ) (amplitude phase : ℝ) :
      SpectrumReachable sp → sp.setHarmonic index amplitude phase = .ok sp2 →
      SpectrumReachable sp2
  | clear (sp : FrequencySpectrum) : SpectrumReachable sp →
      SpectrumReachable sp.clear
  | normalize (sp : FrequencySpectrum) : SpectrumReachable sp →
      SpectrumReachable sp.normalize
  | clone (sp : FrequencySpectrum) : SpectrumReachable sp →
      SpectrumReachable sp.clone
  | transform (w : Waveform) (harmonicCount : ℕ) :
      SpectrumReachable (WaveformTransform.toFrequencyDomain w harmonicCount)

/-- Second formalisation of the additive-synthesis sum, following the
specification text: sum contributions from every harmonic with nonzero
amplitude, at angle 2π * harmonicNumber * s / sampleCount + phase. -/
def specAdditiveSum (sp : FrequencySpectrum) (sampleCount s : ℕ) : ℝ :=
  ∑ h ∈ Finset.range sp.harmonicCount,
    (if (sp.harmonics.getD h ⟨0, 0⟩).amplitude ≠ 0 then
      (sp.harmonics.getD h ⟨0, 0⟩).amplitude *
        Real.sin ((2 * Real.pi * ((h : ℝ) + 1) * (s : ℝ)) / (sampleCount : ℝ) +
          (sp.harmonics.getD h ⟨0, 0⟩).phase)
    else 0)

/-- The waveform holding the raw (unclamped) spec-side additive sums,
used to state what the specification claims toTimeDomain returns. -/
def specRawWaveform (sp : FrequencySpectrum) (sampleCount : ℕ) : Waveform :=
  ⟨sampleCount, (List.range sampleCount).map (fun s => specAdditiveSum sp sampleCount s),
   by simp⟩

/-- The waveform holding the spec-side additive sums clamped into
[-1, 1] per sample, matching what setSample actually stores. -/
def specClampedWaveform (sp : FrequencySpectrum) (sampleCount : ℕ) : Waveform :=
  ⟨sampleCount,
   (List.range sampleCount).map (fun s => clamp (-1) 1 (specAdditiveSum sp sampleCount s)),
   by simp⟩

/-- Concrete two-sample waveform [1, -1], an alternating square cycle. -/
def squareWave2 : Waveform := ⟨2, [1, -1], by simp⟩

/-- Concrete two-harmonic spectrum: amplitudes 1 and 1/2, both with
phase π/2, whose additive sum exceeds 1 at sample 0. -/
def bigSpectrum2 : FrequencySpectrum :=
  ⟨2, [⟨1, Real.pi / 2⟩, ⟨1 / 2, Real.pi / 2⟩], by simp⟩

/-- C3: push truncates the sequence to currentIndex+1 entries
(discarding any redo branch) and appends the state; if the resulting
length exceeds maxLength the oldest entry is removed and currentIndex is
not advanced, otherwise currentIndex is incremented. With maxLength 3,
pushing 5 states into an empty history leaves exactly the 3 most
recently pushed states with currentIndex pointing at the last one. -/
theorem historyPush_truncates_appends_evicts (α : Type) (h : HistoryManager α)
    (state s1 s2 s3 s4 s5 : α) :
    (h.push state =
      if h.maxHistory < (h.history.take (h.currentIndex + 1).toNat ++ [state]).length then
        ⟨h.maxHistory, (h.history.take (h.currentIndex + 1).toNat ++ [state]).drop 1,
         h.currentIndex⟩
      else
        ⟨h.maxHistory, h.history.take (h.currentIndex + 1).toNat ++ [state],
         h.currentIndex + 1⟩) ∧
    (((((HistoryManager.make α 3).push s1).push s2).push s3).push s4).push s5 =
      ⟨3, [s3, s4, s5], 2⟩ := by
  refine ⟨rfl, ?_⟩
  rw [show (HistoryManager.make α 3).push s1 = (⟨3, [s1], 0⟩ : HistoryManager α) from rfl,
    show (⟨3, [s1], 0⟩ : HistoryManager α).push s2 = ⟨3, [s1, s2], 1⟩ from rfl,
    show (⟨3, [s1, s2], 1⟩ : HistoryManager α).push s3 = ⟨3, [s1, s2, s3], 2⟩ from rfl,
    show (⟨3, [s1, s2, s3], 2⟩ : HistoryManager α).push s4 = ⟨3, [s2, s3, s4], 2⟩ from rfl,
    show (⟨3, [s2, s3, s4], 2⟩ : HistoryManager α).push s5 = ⟨3, [s3, s4, s5], 2⟩ from rfl]

/-- C4: canUndo holds iff currentIndex > 0 and canRedo iff
currentIndex < history.length - 1; undo (resp. redo) moves the cursor by
-1 (resp. +1) and returns the snapshot now at the cursor when the
predicate holds, and otherwise returns nothing leaving the state
unchanged; all the operations are total, and undo on an empty or
single-entry history is a no-op. -/
theorem historyUndoRedo_characterization (α : Type) (h : HistoryManager α)
    (hwf : h.WF) :
    (h.canUndo = true ↔ 0 < h.currentIndex) ∧
    (h.canRedo = true ↔ h.currentIndex < (h.history.length : ℤ) - 1) ∧
    (h.canUndo = true →
      ∃ s, h.history.get? (h.currentIndex - 1).toNat = some s ∧
        h.undo = (some s, ⟨h.maxHistory, h.history, h.currentIndex - 1⟩)) ∧
    (h.canUndo = false → h.undo = (none, h)) ∧
    (h.canRedo = true →
      ∃ s, h.history.get? (h.currentIndex + 1).toNat = some s ∧
        h.redo = (some s, ⟨h.maxHistory, h.history, h.currentIndex + 1⟩)) ∧
    (h.canRedo = false → h.redo = (none, h)) ∧
    (h.history.length ≤ 1 → h.undo = (none, h)) := by
  obtain ⟨hlo, hhi⟩ := hwf
  refine ⟨decide_eq_true_iff, decide_eq_true_iff, ?_, ?_, ?_, ?_, ?_⟩
  · intro hu
    have hpos : 0 < h.currentIndex := by
      exact of_decide_eq_true hu
    have hlt : (h.currentIndex - 1).toNat < h.history.length := by
      omega
    refine ⟨h.history.get ⟨(h.currentIndex - 1).toNat, hlt⟩,
      (List.get?_eq_get hlt), ?_⟩
    rw [HistoryManager.undo, hu, if_pos rfl, List.get?_eq_get hlt]
  · intro hu
    rw [HistoryManager.undo, hu]
    simp
  · intro hr
    have hpos : h.currentIndex < (h.history.length : ℤ) - 1 := by
      exact of_decide_eq_true hr
    have hlt : (h.currentIndex + 1).toNat < h.history.length := by
      omega
    refine ⟨h.history.get ⟨(h.currentIndex + 1).toNat, hlt⟩,
      (List.get?_eq_get hlt), ?_⟩
    rw [HistoryManager.redo, hr, if_pos rfl, List.get?_eq_get hlt]
  · intro hr
    rw [HistoryManager.redo, hr]
    simp
  · intro hlen
    have hu : h.canUndo = false := by
      rw [HistoryManager.canUndo, decide_eq_false_iff_not]
      omega
    rw [HistoryManager.undo, hu]
    simp

/-- C4 witness: on the well-formed two-entry history with cursor 1,
undo returns the first snapshot and moves the cursor to 0. -/
theorem historyUndoRedo_characterization_witness :
    (⟨3, [0, 1], 1⟩ : HistoryManager ℕ).undo = (some 0, ⟨3, [0, 1], 0⟩) := by
  obtain ⟨s, hs, hu⟩ :=
    (historyUndoRedo_characterization ℕ ⟨3, [0, 1], 1⟩ ⟨by decide, by decide⟩).2.2.1
      (by decide)
  have hs0 : s = 0 := by
    simp at hs
    omega
  rw [hs0] at hu
  exact hu

/-- C5: on a well-formed power-of-two waveform, setSample then getSample
at an in-range index returns the clamped value (setSample never fails on
the value itself), while both operations fail with outOfRange at any
index outside the bounds. -/
theorem waveform_setSample_getSample (w : Waveform)
    (_hpow : Waveform.isPowerOfTwo w.sampleRate = true) (i : ℤ) (v : ℝ) :
    (0 ≤ i ∧ i < (w.sampleRate : ℤ) →
      ∃ w2, w.setSample i v = .ok w2 ∧ w2.getSample i = .ok (clamp (-1) 1 v)) ∧
    (¬(0 ≤ i ∧ i < (w.sampleRate : ℤ)) →
      w.getSample i = .error .outOfRange ∧ w.setSample i v = .error .outOfRange) := by
  constructor
  · rintro ⟨h0, hN⟩
    have hcond : ¬(i < 0 ∨ (w.sampleRate : ℤ) ≤ i) := by omega
    have hset : w.setSample i v =
        .ok ⟨w.sampleRate, w.samples.set i.toNat (clamp (-1) 1 v),
             by rw [List.length_set]; exact w.length_eq⟩ := by
      rw [Waveform.setSample, if_neg hcond]
    refine ⟨_, hset, ?_⟩
    · rw [Waveform.getSample, if_neg hcond]
      have hlt : i.toNat < w.samples.length := by
        rw [w.length_eq]; omega
      have : (w.samples.set i.toNat (clamp (-1) 1 v)).getD i.toNat 0 =
          clamp (-1) 1 v := by
        rw [List.getD_eq_getElem _ _ (by simpa using hlt)]
        exact List.getElem_set_self _
      simp only [this]
  · intro hout
    have hcond : i < 0 ∨ (w.sampleRate : ℤ) ≤ i := by omega
    exact ⟨by rw [Waveform.getSample, if_pos hcond],
      by rw [Waveform.setSample, if_pos hcond]⟩

/-- C5 witness: on the zero-filled 4-sample waveform, setting index 2 to
the out-of-range value 2 then reading index 2 yields clamp(2) = 1. -/
theorem waveform_setSample_getSample_witness :
    ∃ w2, (⟨4, [0, 0, 0, 0], by simp⟩ : Waveform).setSample 2 2 = .ok w2 ∧
      w2.getSample 2 = .ok (clamp (-1) 1 2) :=
  (waveform_setSample_getSample ⟨4, [0, 0, 0, 0], by simp⟩ (by decide) 2 2).1
    (by constructor <;> decide)

/-- C6: Waveform construction fails with invalidLength exactly when the
requested sample count is not a power of two; in particular 0, 3, 5 and
1000 are rejected while 1, 2, 4 and 1024 succeed with an all-zero
buffer of that length. -/
theorem waveform_make_powerOfTwo :
    (∀ n : ℕ, (∃ w, Waveform.make n = .ok w ∧ w.sampleRate = n ∧
        w.samples = List.replicate n 0) ↔ Waveform.isPowerOfTwo n = true) ∧
    (∀ n : ℕ, Waveform.isPowerOfTwo n = false →
        Waveform.make n = .error .invalidLength) ∧
    Waveform.make 0 = .error .invalidLength ∧
    Waveform.make 3 = .error .invalidLength ∧
    Waveform.make 5 = .error .invalidLength ∧
    Waveform.make 1000 = .error .invalidLength ∧
    (∃ w, Waveform.make 1 = .ok w ∧ w.samples = List.replicate 1 0) ∧
    (∃ w, Waveform.make 2 = .ok w ∧ w.samples = List.replicate 2 0) ∧
    (∃ w, Waveform.make 4 = .ok w ∧ w.samples = List.replicate 4 0) ∧
    (∃ w, Waveform.make 1024 = .ok w ∧ w.samples = List.replicate 1024 0) := by
  have hchar : ∀ n : ℕ, (∃ w, Waveform.make n = .ok w ∧ w.sampleRate = n ∧
      w.samples = List.replicate n 0) ↔ Waveform.isPowerOfTwo n = true := by
    intro n
    constructor
    · rintro ⟨w, hw, -, -⟩
      by_contra hnot
      rw [Waveform.make, if_neg (by simpa using hnot)] at hw
      exact Except.noConfusion hw
    · intro hp
      exact ⟨_, by rw [Waveform.make, if_pos hp], rfl, rfl⟩
  have herr : ∀ n : ℕ, Waveform.isPowerOfTwo n = false →
      Waveform.make n = .error .invalidLength := by
    intro n hn
    rw [Waveform.make, if_neg (by simp [hn])]
  have hok : ∀ n : ℕ, Waveform.isPowerOfTwo n = true →
      ∃ w, Waveform.make n = .ok w ∧ w.samples = List.replicate n 0 := by
    intro n hn
    exact ⟨_, by rw [Waveform.make, if_pos hn], rfl⟩
  exact ⟨hchar, herr, herr 0 (by decide), herr 3 (by decide), herr 5 (by decide),
    herr 1000 (by decide), hok 1 (by decide), hok 2 (by decide),
    hok 4 (by decide), hok 1024 (by decide)⟩

/-- C6 witness: 7 is not a power of two, so construction at 7 fails
with invalidLength. -/
theorem waveform_make_powerOfTwo_witness :
    Waveform.make 7 = .error WaveError.invalidLength :=
  waveform_make_powerOfTwo.2.1 7 (by decide)

theorem foldl_max_abs_le_init (l : List ℝ) : ∀ c : ℝ,
    c ≤ l.foldl (fun m s => max m |s|) c := by
  induction l with
  | nil => intro c; exact le_refl c
  | cons x xs ih =>
    intro c
    exact le_trans (le_max_left c |x|) (ih (max c |x|))

theorem mem_le_foldl_max_abs (l : List ℝ) : ∀ (c s : ℝ), s ∈ l →
    |s| ≤ l.foldl (fun m s2 => max m |s2|) c := by
  induction l with
  | nil => intro c s hs; cases hs
  | cons x xs ih =>
    intro c s hs
    rcases List.mem_cons.mp hs with h | h
    · subst h
      exact le_trans (le_max_right c |s|) (foldl_max_abs_le_init xs _)
    · exact ih _ s h

theorem foldl_max_abs_div (m : ℝ) (hm : 0 < m) (l : List ℝ) : ∀ c : ℝ,
    (l.map (fun s => s / m)).foldl (fun a s => max a |s|) (c / m) =
      (l.foldl (fun a s => max a |s|) c) / m := by
  induction l with
  | nil => intro c; rfl
  | cons x xs ih =>
    intro c
    simp only [List.map_cons, List.foldl_cons]
    rw [abs_div, abs_of_pos hm, max_div_div_right (le_of_lt hm), ih]

theorem foldl_max_abs_all_zero (l : List ℝ) (hz : ∀ s ∈ l, s = 0) :
    l.foldl (fun a s => max a |s|) 0 = 0 := by
  induction l with
  | nil => rfl
  | cons x xs ih =>
    have hx : x = 0 := hz x (List.mem_cons_self x xs)
    simp only [List.foldl_cons, hx, abs_zero, max_self]
    exact ih (fun s hs => hz s (List.mem_cons_of_mem x hs))

/-- C7: normalize divides every sample by the maximum absolute sample
when that maximum is nonzero and not already 1; afterwards the maximum
absolute sample equals 1 whenever the input had any nonzero sample, and
an all-zero waveform is left completely unchanged. -/
theorem waveform_normalize_peak (w : Waveform) :
    (0 < w.maxAbs ∧ w.maxAbs ≠ 1 →
      w.normalize.samples = w.samples.map (fun s => s / w.maxAbs)) ∧
    ((∃ s ∈ w.samples, s ≠ 0) → w.normalize.maxAbs = 1) ∧
    ((∀ s ∈ w.samples, s = 0) → w.normalize = w) := by
  refine ⟨?_, ?_, ?_⟩
  · intro hcond
    rw [Waveform.normalize, if_pos hcond]
  · rintro ⟨s, hmem, hs⟩
    have hpos : 0 < w.maxAbs := by
      have h1 : |s| ≤ w.maxAbs := mem_le_foldl_max_abs w.samples 0 s hmem
      have h2 : 0 < |s| := abs_pos.mpr hs
      linarith
    by_cases hone : w.maxAbs = 1
    · rw [Waveform.normalize, if_neg (by intro hc; exact hc.2 hone)]
      exact hone
    · rw [Waveform.normalize, if_pos ⟨hpos, hone⟩]
      show (w.samples.map (fun s2 => s2 / w.maxAbs)).foldl (fun a s2 => max a |s2|) 0 = 1
      have h0 : (0 : ℝ) = 0 / w.maxAbs := by rw [zero_div]
      rw [h0, foldl_max_abs_div w.maxAbs hpos w.samples 0]
      exact div_self (ne_of_gt hpos)
  · intro hz
    have hm : w.maxAbs = 0 := foldl_max_abs_all_zero w.samples hz
    rw [Waveform.normalize, if_neg (by rw [hm]; intro hc; exact lt_irrefl 0 hc.1)]

/-- C7 witness: normalizing the one-sample waveform [1/2] yields maximum
absolute sample 1. -/
theorem waveform_normalize_peak_witness :
    (Waveform.normalize ⟨1, [1 / 2], by simp⟩).maxAbs = 1 :=
  (waveform_normalize_peak ⟨1, [1 / 2], by simp⟩).2.1
    ⟨1 / 2, by simp, by norm_num⟩

theorem getD_map_range {β : Type} (N i : ℕ) (hi : i < N) (f : ℕ → β) (d : β) :
    ((List.range N).map f).getD i d = f i := by
  rw [List.getD_eq_getElem _ _ (by simpa using hi)]
  simp

/-- C9: applySmoothing returns a new waveform with the same sample
count, equal to the clone of the input with smooth applied: each sample
becomes curr * (1 - amount) + avg(prev, next) * amount over the circular
neighbours when 0 < amount ≤ 1, and the result is the unchanged input
otherwise; the input waveform itself is never mutated (all modelled
operations are pure). -/
theorem applySmoothing_clone_smooth (w : Waveform) (amount : ℝ) :
    (WaveformTransform.applySmoothing w amount).sampleRate = w.sampleRate ∧
    (0 < amount → amount ≤ 1 → ∀ i : ℕ, i < w.sampleRate →
      (WaveformTransform.applySmoothing w amount).samples.getD i 0 =
        w.samples.getD i 0 * (1 - amount) +
          (w.samples.getD (((i : ℤ) - 1 + (w.sampleRate : ℤ)) %
              (w.sampleRate : ℤ)).toNat 0 +
            w.samples.getD ((i + 1) % w.sampleRate) 0) / 2 * amount) ∧
    ((amount ≤ 0 ∨ 1 < amount) → WaveformTransform.applySmoothing w amount = w) := by
  refine ⟨?_, ?_, ?_⟩
  · rw [WaveformTransform.applySmoothing, Waveform.clone, Waveform.smooth]
    by_cases hc : amount ≤ 0 ∨ 1 < amount
    · rw [if_pos hc]
    · rw [if_neg hc]
  · intro h0 h1 i hi
    rw [WaveformTransform.applySmoothing, Waveform.clone, Waveform.smooth,
      if_neg (by push_neg; exact ⟨h0, h1⟩)]
    show ((List.range w.sampleRate).map _).getD i 0 = _
    rw [getD_map_range w.sampleRate i hi]
    ring
  · intro hc
    rw [WaveformTransform.applySmoothing, Waveform.clone, Waveform.smooth, if_pos hc]

/-- C9 witness: smoothing the two-sample waveform [1, 0] by 1/2 yields
at index 0 the 3-tap average announced by the formula. -/
theorem applySmoothing_clone_smooth_witness :
    (WaveformTransform.applySmoothing (⟨2, [1, 0], by simp⟩ : Waveform)
        (1 / 2)).samples.getD 0 0 =
      (⟨2, [1, 0], by simp⟩ : Waveform).samples.getD 0 0 * (1 - 1 / 2) +
        ((⟨2, [1, 0], by simp⟩ : Waveform).samples.getD
            ((((0 : ℕ) : ℤ) - 1 + (((⟨2, [1, 0], by simp⟩ : Waveform).sampleRate : ℕ) : ℤ)) %
              (((⟨2, [1, 0], by simp⟩ : Waveform).sampleRate : ℕ) : ℤ)).toNat 0 +
          (⟨2, [1, 0], by simp⟩ : Waveform).samples.getD
            ((0 + 1) % (⟨2, [1, 0], by simp⟩ : Waveform).sampleRate) 0) / 2 * (1 / 2) :=
  (applySmoothing_clone_smooth ⟨2, [1, 0], by simp⟩ (1 / 2)).2.1
    (by norm_num) (by norm_num) 0 (by norm_num)

theorem abs_getD_le_one (l : List ℝ) (n : ℕ) (hb : ∀ s ∈ l, |s| ≤ 1) :
    |l.getD n 0| ≤ 1 := by
  by_cases hn : n < l.length
  · rw [List.getD_eq_getElem _ _ hn]
    exact hb _ (List.getElem_mem hn)
  · rw [List.getD_eq_getElem?_getD, List.getElem?_eq_none (by omega)]
    simp

/-- C10: smooth writes the smoothed buffer directly, bypassing
setSample's clamping, yet preserves the sample-range invariant: when
every input sample lies in [-1, 1] and 0 < amount ≤ 1, every output
sample is a convex combination of in-range values and so stays in
[-1, 1]. -/
theorem smooth_preserves_sample_range (w : Waveform) (amount : ℝ)
    (hs : ∀ s ∈ w.samples, |s| ≤ 1) (h0 : 0 < amount) (h1 : amount ≤ 1) :
    ∀ s ∈ (w.smooth amount).samples, |s| ≤ 1 := by
  intro s hmem
  rw [Waveform.smooth, if_neg (by push_neg; exact ⟨h0, h1⟩)] at hmem
  simp only [List.mem_map, List.mem_range] at hmem
  obtain ⟨i, hi, rfl⟩ := hmem
  show |w.samples.getD i 0 * (1 - amount) +
    (w.samples.getD (((i : ℤ) - 1 + (w.sampleRate : ℤ)) %
        (w.sampleRate : ℤ)).toNat 0 +
      w.samples.getD ((i + 1) % w.sampleRate) 0) * 0.5 * amount| ≤ 1
  set prev := w.samples.getD (((i : ℤ) - 1 + (w.sampleRate : ℤ)) %
    (w.sampleRate : ℤ)).toNat 0 with hprev_def
  set curr := w.samples.getD i 0 with hcurr_def
  set next := w.samples.getD ((i + 1) % w.sampleRate) 0 with hnext_def
  have hprev : |prev| ≤ 1 := abs_getD_le_one _ _ hs
  have hcurr : |curr| ≤ 1 := abs_getD_le_one _ _ hs
  have hnext : |next| ≤ 1 := abs_getD_le_one _ _ hs
  have step1 : |curr * (1 - amount) + (prev + next) * 0.5 * amount| ≤
      |curr * (1 - amount)| + |(prev + next) * 0.5 * amount| := abs_add _ _
  have step2 : |curr * (1 - amount)| = |curr| * (1 - amount) := by
    rw [abs_mul, abs_of_nonneg (by linarith : (0 : ℝ) ≤ 1 - amount)]
  have step3 : |(prev + next) * 0.5 * amount| = |prev + next| * 0.5 * amount := by
    rw [abs_mul, abs_mul, abs_of_nonneg (by norm_num : (0 : ℝ) ≤ 0.5),
      abs_of_nonneg (le_of_lt h0)]
  have step4 : |prev + next| ≤ 2 := le_trans (abs_add prev next) (by linarith)
  have step5 : |curr| * (1 - amount) ≤ 1 - amount :=
    mul_le_of_le_one_left (by linarith) hcurr
  have step6 : |prev + next| * 0.5 * amount ≤ amount := by nlinarith
  calc |curr * (1 - amount) + (prev + next) * 0.5 * amount|
      ≤ |curr * (1 - amount)| + |(prev + next) * 0.5 * amount| := step1
    _ = |curr| * (1 - amount) + |prev + next| * 0.5 * amount := by
        rw [step2, step3]
    _ ≤ (1 - amount) + amount := add_le_add step5 step6
    _ = 1 := by ring

/-- C10 witness: smoothing the in-range waveform [1, -1] by 1 keeps
the sample at index 0 within [-1, 1]. -/
theorem smooth_preserves_sample_range_witness :
    |((⟨2, [1, -1], by simp⟩ : Waveform).smooth 1).samples.getD 0 0| ≤ 1 := by
  have h := smooth_preserves_sample_range ⟨2, [1, -1], by simp⟩ 1
    (by intro s hs; fin_cases hs <;> norm_num) (by norm_num) (by norm_num)
  have hsr : ((⟨2, [1, -1], by simp⟩ : Waveform).smooth 1).sampleRate = 2 := by
    rw [Waveform.smooth]
    split <;> rfl
  have hlen : 0 < ((⟨2, [1, -1], by simp⟩ : Waveform).smooth 1).samples.length := by
    rw [((⟨2, [1, -1], by simp⟩ : Waveform).smooth 1).length_eq, hsr]
    norm_num
  rw [List.getD_eq_getElem _ _ hlen]
  exact h _ (List.getElem_mem hlen)

theorem jsMod_bounds (x y : ℝ) (hy : 0 < y) : -y < jsMod x y ∧ jsMod x y < y := by
  have hyne : y ≠ 0 := ne_of_gt hy
  have hx : y * (x / y) = x := by field_simp
  rw [jsMod, jsTrunc]
  by_cases hz : 0 ≤ x / y
  · rw [if_pos hz]
    have hfr : x - y * (⌊x / y⌋ : ℝ) = y * Int.fract (x / y) := by
      rw [Int.fract, mul_sub, hx]
    rw [hfr]
    constructor
    · have h1 : 0 ≤ y * Int.fract (x / y) :=
        mul_nonneg (le_of_lt hy) (Int.fract_nonneg _)
      linarith
    · have h2 : y * Int.fract (x / y) < y * 1 :=
        (mul_lt_mul_left hy).mpr (Int.fract_lt_one _)
      linarith
  · rw [if_neg hz]
    have hup : x / y ≤ (⌈x / y⌉ : ℝ) := Int.le_ceil _
    have hdn : ((⌈x / y⌉ : ℤ) : ℝ) < x / y + 1 := Int.ceil_lt_add_one _
    constructor
    · have hlow : y * ((⌈x / y⌉ : ℤ) : ℝ) < y * (x / y + 1) := (mul_lt_mul_left hy).mpr hdn
      rw [mul_add, hx] at hlow
      linarith
    · have hhigh : y * (x / y) ≤ y * (⌈x / y⌉ : ℝ) := (mul_le_mul_left hy).mpr hup
      rw [hx] at hhigh
      linarith

theorem clamp_unit_bounds (x : ℝ) : 0 ≤ clamp 0 1 x ∧ clamp 0 1 x ≤ 1 :=
  ⟨le_max_left 0 _, max_le (by norm_num) (min_le_left 1 x)⟩

/-- The amended per-harmonic invariant: amplitude in [0, 1] and phase
strictly between -2π and 2π (the sign-preserving JS remainder does not
force a nonnegative phase). -/
def HarmonicOK (hm : Harmonic) : Prop :=
  0 ≤ hm.amplitude ∧ hm.amplitude ≤ 1 ∧
    -(Real.pi * 2) < hm.phase ∧ hm.phase < Real.pi * 2

theorem setHarmonicData_ok (amplitude phase : ℝ) :
    HarmonicOK (setHarmonicData amplitude phase) := by
  have hpi : 0 < Real.pi * 2 := by
    have := Real.pi_pos
    linarith
  obtain ⟨h1, h2⟩ := jsMod_bounds phase (Real.pi * 2) hpi
  exact ⟨(clamp_unit_bounds amplitude).1, (clamp_unit_bounds amplitude).2, h1, h2⟩

theorem harmonicOK_zero : HarmonicOK ⟨0, 0⟩ := by
  have := Real.pi_pos
  refine ⟨le_refl 0, by norm_num, ?_, ?_⟩
  · show -(Real.pi * 2) < 0
    linarith
  · show (0 : ℝ) < Real.pi * 2
    linarith

theorem init_le_foldl_add_amp (l : List Harmonic)
    (hnn : ∀ hm ∈ l, 0 ≤ hm.amplitude) : ∀ c : ℝ,
    c ≤ l.foldl (fun s h => s + h.amplitude) c := by
  induction l with
  | nil => intro c; exact le_refl c
  | cons x xs ih =>
    intro c
    have hx : 0 ≤ x.amplitude := hnn x (List.mem_cons_self x xs)
    have hxs : ∀ hm ∈ xs, 0 ≤ hm.amplitude :=
      fun hm hmem => hnn hm (List.mem_cons_of_mem x hmem)
    calc c ≤ c + x.amplitude := by linarith
      _ ≤ xs.foldl (fun s h => s + h.amplitude) (c + x.amplitude) := ih hxs _

theorem mem_amp_le_foldl (l : List Harmonic)
    (hnn : ∀ hm ∈ l, 0 ≤ hm.amplitude) : ∀ c : ℝ, 0 ≤ c → ∀ hm ∈ l,
    hm.amplitude ≤ l.foldl (fun s h => s + h.amplitude) c := by
  induction l with
  | nil => intro c _ hm hmem; cases hmem
  | cons x xs ih =>
    intro c hc hm hmem
    have hx : 0 ≤ x.amplitude := hnn x (List.mem_cons_self x xs)
    have hxs : ∀ hm2 ∈ xs, 0 ≤ hm2.amplitude :=
      fun hm2 hmem2 => hnn hm2 (List.mem_cons_of_mem x hmem2)
    rcases List.mem_cons.mp hmem with h | h
    · subst h
      calc hm.amplitude ≤ c + hm.amplitude := by linarith
        _ ≤ xs.foldl (fun s h2 => s + h2.amplitude) (c + hm.amplitude) :=
            init_le_foldl_add_amp xs hxs _
    · exact ih hxs (c + x.amplitude) (by linarith) hm h

theorem spectrumReachable_harmonics_ok (sp : FrequencySpectrum)
    (h : SpectrumReachable sp) : ∀ hm ∈ sp.harmonics, HarmonicOK hm := by
  induction h with
  | make n =>
    intro hm hmem
    rw [List.eq_of_mem_replicate hmem]
    exact harmonicOK_zero
  | set sp sp2 index amplitude phase hr hset ih =>
    rw [FrequencySpectrum.setHarmonic] at hset
    by_cases hc : index < 0 ∨ (sp.harmonicCount : ℤ) ≤ index
    · rw [if_pos hc] at hset
      exact absurd hset (by simp)
    · rw [if_neg hc] at hset
      have hsp2 : sp2.harmonics =
          sp.harmonics.set index.toNat (setHarmonicData amplitude phase) := by
        have := congrArg FrequencySpectrum.harmonics (Except.ok.inj hset)
        exact this.symm
      intro hm hmem
      rw [hsp2] at hmem
      rcases List.mem_or_eq_of_mem_set hmem with h2 | h2
      · exact ih hm h2
      · rw [h2]
        exact setHarmonicData_ok amplitude phase
  | clear sp hr ih =>
    intro hm hmem
    rcases List.mem_map.mp hmem with ⟨hm2, -, heq⟩
    rw [← heq]
    exact harmonicOK_zero
  | normalize sp hr ih =>
    rw [FrequencySpectrum.normalize]
    by_cases hc : 0 < sp.sumAmplitudes ∧ sp.sumAmplitudes ≠ 1
    · rw [if_pos hc]
      intro hm hmem
      rcases List.mem_map.mp hmem with ⟨hm2, hmem2, heq⟩
      have hok2 := ih hm2 hmem2
      have hnn : ∀ hm3 ∈ sp.harmonics, 0 ≤ hm3.amplitude :=
        fun hm3 hmem3 => (ih hm3 hmem3).1
      have hle : hm2.amplitude ≤ sp.sumAmplitudes :=
        mem_amp_le_foldl sp.harmonics hnn 0 (le_refl 0) hm2 hmem2
      rw [← heq]
      refine ⟨div_nonneg hok2.1 (le_of_lt hc.1), ?_, hok2.2.2.1, hok2.2.2.2⟩
      exact (div_le_one hc.1).mpr hle
    · rw [if_neg hc]
      exact ih
  | clone sp hr ih =>
    exact ih
  | transform w harmonicCount =>
    intro hm hmem
    rcases List.mem_map.mp hmem with ⟨k, -, heq⟩
    rw [← heq]
    exact setHarmonicData_ok _ _

/-- C8 counterexample: the claim that every reachable spectrum stores
each phase in [0, 2π) fails at the concrete reachable spectrum obtained
by setHarmonic(0, 1/2, -1) on a fresh one-harmonic spectrum, which
stores phase -1 because the JS remainder keeps the sign of its
dividend. -/
theorem spectrum_phase_range_counterexample :
    ¬ ∀ sp : FrequencySpectrum, SpectrumReachable sp →
      ∀ i : ℕ, i < sp.harmonicCount →
        0 ≤ (sp.harmonics.getD i ⟨0, 0⟩).phase ∧
          (sp.harmonics.getD i ⟨0, 0⟩).phase < Real.pi * 2 := by
  intro hclaim
  have hok : (FrequencySpectrum.make 1).setHarmonic 0 (1 / 2) (-1) =
      .ok ⟨1, [setHarmonicData (1 / 2) (-1)], by simp⟩ := by
    rw [FrequencySpectrum.setHarmonic,
      if_neg (by rw [FrequencySpectrum.make]; norm_num)]
    rfl
  have hreach : SpectrumReachable ⟨1, [setHarmonicData (1 / 2) (-1)], by simp⟩ :=
    SpectrumReachable.set (FrequencySpectrum.make 1) _ 0 (1 / 2) (-1)
      (SpectrumReachable.make 1) hok
  have hgot := (hclaim _ hreach 0 (by norm_num)).1
  have hphase : jsMod (-1) (Real.pi * 2) = -1 := by
    have hpi := Real.pi_pos
    have hpi3 := Real.pi_gt_three
    rw [jsMod, jsTrunc,
      if_neg (by
        push_neg
        apply div_neg_of_neg_of_pos
        · norm_num
        · linarith)]
    have hceil : ⌈(-1 : ℝ) / (Real.pi * 2)⌉ = 0 := by
      rw [Int.ceil_eq_zero_iff]
      constructor
      · show (-1 : ℝ) < -1 / (Real.pi * 2)
        rw [neg_div]
        have h1 : 1 / (Real.pi * 2) < 1 := by
          rw [div_lt_one (by linarith)]
          linarith
        linarith
      · show (-1 : ℝ) / (Real.pi * 2) ≤ 0
        apply le_of_lt
        apply div_neg_of_neg_of_pos
        · norm_num
        · linarith
    rw [hceil]
    norm_num
  rw [show ((⟨1, [setHarmonicData (1 / 2) (-1)], by simp⟩ :
      FrequencySpectrum).harmonics.getD 0 ⟨0, 0⟩).phase =
      jsMod (-1) (Real.pi * 2) from rfl, hphase] at hgot
  linarith

/-- C8 (amended): every FrequencySpectrum reachable through the public
operations satisfies: each stored amplitude lies in [0, 1], and each
stored phase lies strictly between -2π and 2π (the JS remainder wraps
the magnitude below 2π but keeps the sign of the input phase, so
negative phases are not forced into [0, 2π)). -/
theorem spectrum_reachable_invariant (sp : FrequencySpectrum)
    (h : SpectrumReachable sp) (i : ℕ) (hi : i < sp.harmonicCount) :
    0 ≤ (sp.harmonics.getD i ⟨0, 0⟩).amplitude ∧
      (sp.harmonics.getD i ⟨0, 0⟩).amplitude ≤ 1 ∧
      -(Real.pi * 2) < (sp.harmonics.getD i ⟨0, 0⟩).phase ∧
      (sp.harmonics.getD i ⟨0, 0⟩).phase < Real.pi * 2 := by
  have hlt : i < sp.harmonics.length := by
    rw [sp.length_eq]
    exact hi
  rw [List.getD_eq_getElem _ _ hlt]
  exact spectrumReachable_harmonics_ok sp h _ (List.getElem_mem hlt)

/-- C8 witness: the freshly constructed two-harmonic spectrum is
reachable and its harmonic 0 satisfies the amended bounds. -/
theorem spectrum_reachable_invariant_witness :
    0 ≤ ((FrequencySpectrum.make 2).harmonics.getD 0 ⟨0, 0⟩).amplitude ∧
      ((FrequencySpectrum.make 2).harmonics.getD 0 ⟨0, 0⟩).amplitude ≤ 1 ∧
      -(Real.pi * 2) < ((FrequencySpectrum.make 2).harmonics.getD 0 ⟨0, 0⟩).phase ∧
      ((FrequencySpectrum.make 2).harmonics.getD 0 ⟨0, 0⟩).phase < Real.pi * 2 :=
  spectrum_reachable_invariant (FrequencySpectrum.make 2)
    (SpectrumReachable.make 2) 0 (by norm_num [FrequencySpectrum.make])

theorem jsMod_eq_self_of_arg_range (p : ℝ) (hlo : -Real.pi < p) (hhi : p ≤ Real.pi) :
    jsMod p (Real.pi * 2) = p := by
  have hpi := Real.pi_pos
  rw [jsMod, jsTrunc]
  by_cases hz : 0 ≤ p / (Real.pi * 2)
  · rw [if_pos hz]
    have hfl : ⌊p / (Real.pi * 2)⌋ = 0 := by
      rw [Int.floor_eq_zero_iff]
      refine ⟨hz, ?_⟩
      rw [div_lt_one (by linarith)]
      linarith
    rw [hfl]
    norm_num
  · rw [if_neg hz]
    have hcl : ⌈p / (Real.pi * 2)⌉ = 0 := by
      rw [Int.ceil_eq_zero_iff]
      constructor
      · show (-1 : ℝ) < p / (Real.pi * 2)
        rw [lt_div_iff₀ (by linarith : (0:ℝ) < Real.pi * 2)]
        linarith
      · show p / (Real.pi * 2) ≤ 0
        push_neg at hz
        exact le_of_lt hz
    rw [hcl]
    norm_num

/-- C1 (amended): for every waveform and harmonic index k below the
requested count, toFrequencyDomain stores amplitude
clamp(2·sqrt(real² + imag²), 0, 1) — the raw 2·sqrt value is clamped
into [0, 1] by setHarmonic — and phase atan2(imag, real), where real
and imag are the N-normalized DFT accumulators. -/
theorem toFrequencyDomain_harmonic_values (w : Waveform) (harmonicCount k : ℕ)
    (hk : k < harmonicCount) :
    (WaveformTransform.toFrequencyDomain w harmonicCount).harmonics.getD k ⟨0, 0⟩ =
      ⟨clamp 0 1 (2 * Real.sqrt
          (((∑ n ∈ Finset.range w.sampleRate, w.samples.getD n 0 *
              Real.cos ((-2 * Real.pi * ((k : ℝ) + 1) * (n : ℝ)) / (w.sampleRate : ℝ))) /
            (w.sampleRate : ℝ)) ^ 2 +
          ((∑ n ∈ Finset.range w.sampleRate, w.samples.getD n 0 *
              Real.sin ((-2 * Real.pi * ((k : ℝ) + 1) * (n : ℝ)) / (w.sampleRate : ℝ))) /
            (w.sampleRate : ℝ)) ^ 2)),
       atan2 (dftImag w k) (dftReal w k)⟩ := by
  rw [WaveformTransform.toFrequencyDomain]
  show ((List.range harmonicCount).map _).getD k (⟨0, 0⟩ : Harmonic) = _
  rw [getD_map_range harmonicCount k hk]
  rw [setHarmonicData]
  have hsq : dftReal w k * dftReal w k + dftImag w k * dftImag w k =
      dftReal w k ^ 2 + dftImag w k ^ 2 := by ring
  rw [hsq]
  have harg := Complex.arg_mem_Ioc (⟨dftReal w k, dftImag w k⟩ : ℂ)
  have hphase : jsMod (atan2 (dftImag w k) (dftReal w k)) (Real.pi * 2) =
      atan2 (dftImag w k) (dftReal w k) :=
    jsMod_eq_self_of_arg_range _ harg.1 harg.2
  rw [hphase, dftReal, dftImag]

/-- C1 witness: the amended statement applied to the concrete waveform
[1, -1] at harmonic index 0 of 1. -/
theorem toFrequencyDomain_harmonic_values_witness :
    (WaveformTransform.toFrequencyDomain squareWave2 1).harmonics.getD 0 ⟨0, 0⟩ =
      ⟨clamp 0 1 (2 * Real.sqrt
          (((∑ n ∈ Finset.range squareWave2.sampleRate, squareWave2.samples.getD n 0 *
              Real.cos ((-2 * Real.pi * (((0 : ℕ) : ℝ) + 1) * (n : ℝ)) /
                (squareWave2.sampleRate : ℝ))) /
            (squareWave2.sampleRate : ℝ)) ^ 2 +
          ((∑ n ∈ Finset.range squareWave2.sampleRate, squareWave2.samples.getD n 0 *
              Real.sin ((-2 * Real.pi * (((0 : ℕ) : ℝ) + 1) * (n : ℝ)) /
                (squareWave2.sampleRate : ℝ))) /
            (squareWave2.sampleRate : ℝ)) ^ 2)),
       atan2 (dftImag squareWave2 0) (dftReal squareWave2 0)⟩ :=
  toFrequencyDomain_harmonic_values squareWave2 1 0 (by norm_num)

theorem dftReal_squareWave2 : dftReal squareWave2 0 = 1 := by
  rw [dftReal, show squareWave2.sampleRate = 2 from rfl,
    show squareWave2.samples = [1, -1] from rfl,
    Finset.sum_range_succ, Finset.sum_range_succ, Finset.sum_range_zero, zero_add]
  have hc0 : (-2 * Real.pi * (((0 : ℕ) : ℝ) + 1) * (((0 : ℕ) : ℕ) : ℝ)) / ((2 : ℕ) : ℝ) = 0 := by
    push_cast
    ring
  have hc1 : (-2 * Real.pi * (((0 : ℕ) : ℝ) + 1) * (((1 : ℕ) : ℕ) : ℝ)) / ((2 : ℕ) : ℝ) =
      -Real.pi := by
    push_cast
    ring
  rw [hc0, hc1, Real.cos_zero, Real.cos_neg, Real.cos_pi]
  norm_num

theorem dftImag_squareWave2 : dftImag squareWave2 0 = 0 := by
  rw [dftImag, show squareWave2.sampleRate = 2 from rfl,
    show squareWave2.samples = [1, -1] from rfl,
    Finset.sum_range_succ, Finset.sum_range_succ, Finset.sum_range_zero, zero_add]
  have hc0 : (-2 * Real.pi * (((0 : ℕ) : ℝ) + 1) * (((0 : ℕ) : ℕ) : ℝ)) / ((2 : ℕ) : ℝ) = 0 := by
    push_cast
    ring
  have hc1 : (-2 * Real.pi * (((0 : ℕ) : ℝ) + 1) * (((1 : ℕ) : ℕ) : ℝ)) / ((2 : ℕ) : ℝ) =
      -Real.pi := by
    push_cast
    ring
  rw [hc0, hc1, Real.sin_zero, Real.sin_neg, Real.sin_pi]
  norm_num

/-- C1 counterexample: on the waveform [1, -1] with one analyzed
harmonic, the DFT accumulators are real = 1, imag = 0, so the claim
says the stored amplitude is 2·sqrt(1) = 2, but setHarmonic clamps it
and the spectrum actually stores amplitude 1. -/
theorem toFrequencyDomain_amplitude_counterexample :
    ((WaveformTransform.toFrequencyDomain squareWave2 1).harmonics.getD 0 ⟨0, 0⟩).amplitude ≠
      2 * Real.sqrt (dftReal squareWave2 0 ^ 2 + dftImag squareWave2 0 ^ 2) := by
  have hstored :
      ((WaveformTransform.toFrequencyDomain squareWave2 1).harmonics.getD 0 ⟨0, 0⟩).amplitude =
        clamp 0 1 (2 * Real.sqrt (dftReal squareWave2 0 * dftReal squareWave2 0 +
          dftImag squareWave2 0 * dftImag squareWave2 0)) := rfl
  rw [hstored, dftReal_squareWave2, dftImag_squareWave2]
  have hsq : Real.sqrt (1 * 1 + 0 * 0) = 1 := by
    norm_num
  have hsq2 : Real.sqrt ((1 : ℝ) ^ 2 + (0 : ℝ) ^ 2) = 1 := by
    norm_num
  rw [hsq, hsq2]
  rw [clamp]
  norm_num

theorem Waveform.ext_fields (a b : Waveform) (h1 : a.sampleRate = b.sampleRate)
    (h2 : a.samples = b.samples) : a = b := by
  cases a
  cases b
  simp only at h1 h2
  subst h1
  subst h2
  rfl

theorem amplitude_getD_nonneg (sp : FrequencySpectrum)
    (hnn : ∀ hm ∈ sp.harmonics, 0 ≤ hm.amplitude) (h : ℕ) :
    0 ≤ (sp.harmonics.getD h ⟨0, 0⟩).amplitude := by
  by_cases hlt : h < sp.harmonics.length
  · rw [List.getD_eq_getElem _ _ hlt]
    exact hnn _ (List.getElem_mem hlt)
  · rw [List.getD_eq_getElem?_getD, List.getElem?_eq_none (by omega)]
    exact le_refl 0

theorem synthValue_eq_specAdditiveSum (sp : FrequencySpectrum)
    (hnn : ∀ hm ∈ sp.harmonics, 0 ≤ hm.amplitude) (sampleRate s : ℕ) :
    synthValue sp sampleRate s = specAdditiveSum sp sampleRate s := by
  rw [synthValue, specAdditiveSum]
  refine Finset.sum_congr rfl ?_
  intro h _
  have hge := amplitude_getD_nonneg sp hnn h
  by_cases hzero : (sp.harmonics.getD h ⟨0, 0⟩).amplitude = 0
  · rw [if_neg (by rw [hzero]; exact lt_irrefl 0), if_neg (by rw [hzero]; exact fun hc => hc rfl)]
  · rw [if_pos (lt_of_le_of_ne hge (fun he => hzero he.symm)), if_pos hzero]

/-- C2 (amended): for every spectrum whose stored amplitudes are
nonnegative (true of every reachable spectrum) and every power-of-two
sample count, toTimeDomain returns the peak-normalization of the
per-sample CLAMPED additive-synthesis sum — each raw sum is stored
through setSample, which clamps it into [-1, 1] before normalize runs —
not of the raw unclamped sum. -/
theorem toTimeDomain_normalizes_clamped_sum (sp : FrequencySpectrum) (N : ℕ)
    (hpow : Waveform.isPowerOfTwo N = true)
    (hnn : ∀ hm ∈ sp.harmonics, 0 ≤ hm.amplitude) :
    WaveformTransform.toTimeDomain sp N =
      .ok (Waveform.normalize (specClampedWaveform sp N)) := by
  have hmake : Waveform.make N = .ok ⟨N, List.replicate N 0, by simp⟩ := by
    rw [Waveform.make, if_pos hpow]
  rw [WaveformTransform.toTimeDomain, hmake, Except.map]
  have hw : (⟨N, (List.range N).map (fun s => clamp (-1) 1 (synthValue sp N s)),
      by simp⟩ : Waveform) = specClampedWaveform sp N := by
    refine Waveform.ext_fields _ _ rfl ?_
    show (List.range N).map _ = (List.range N).map _
    refine List.map_congr_left ?_
    intro s _
    rw [synthValue_eq_specAdditiveSum sp hnn N s]
  rw [hw]

/-- C2 witness: the amended statement applied to the all-zero
one-harmonic spectrum at sample count 2. -/
theorem toTimeDomain_normalizes_clamped_sum_witness :
    WaveformTransform.toTimeDomain (FrequencySpectrum.make 1) 2 =
      .ok (Waveform.normalize (specClampedWaveform (FrequencySpectrum.make 1) 2)) :=
  toTimeDomain_normalizes_clamped_sum (FrequencySpectrum.make 1) 2 (by decide)
    (fun hm hmem => by rw [List.eq_of_mem_replicate hmem])

theorem synthValue_bigSpectrum2_zero : synthValue bigSpectrum2 2 0 = 3 / 2 := by
  rw [synthValue, show bigSpectrum2.harmonicCount = 2 from rfl,
    Finset.sum_range_succ, Finset.sum_range_succ, Finset.sum_range_zero, zero_add,
    show bigSpectrum2.harmonics.getD 0 ⟨0, 0⟩ = ⟨1, Real.pi / 2⟩ from rfl,
    show bigSpectrum2.harmonics.getD 1 ⟨0, 0⟩ = ⟨1 / 2, Real.pi / 2⟩ from rfl]
  show (if (0 : ℝ) < 1 then (1 : ℝ) * Real.sin ((2 * Real.pi * (((0 : ℕ) : ℝ) + 1) *
      (((0 : ℕ) : ℕ) : ℝ)) / ((2 : ℕ) : ℝ) + Real.pi / 2) else 0) +
    (if (0 : ℝ) < 1 / 2 then (1 / 2 : ℝ) * Real.sin ((2 * Real.pi * (((1 : ℕ) : ℝ) + 1) *
      (((0 : ℕ) : ℕ) : ℝ)) / ((2 : ℕ) : ℝ) + Real.pi / 2) else 0) = 3 / 2
  rw [if_pos (by norm_num : (0 : ℝ) < 1), if_pos (by norm_num : (0 : ℝ) < 1 / 2)]
  have ha0 : (2 * Real.pi * (((0 : ℕ) : ℝ) + 1) * (((0 : ℕ) : ℕ) : ℝ)) / ((2 : ℕ) : ℝ) +
      Real.pi / 2 = Real.pi / 2 := by
    push_cast
    ring
  have ha1 : (2 * Real.pi * (((1 : ℕ) : ℝ) + 1) * (((0 : ℕ) : ℕ) : ℝ)) / ((2 : ℕ) : ℝ) +
      Real.pi / 2 = Real.pi / 2 := by
    push_cast
    ring
  rw [ha0, ha1, Real.sin_pi_div_two]
  norm_num

theorem synthValue_bigSpectrum2_one : synthValue bigSpectrum2 2 1 = -(1 / 2) := by
  rw [synthValue, show bigSpectrum2.harmonicCount = 2 from rfl,
    Finset.sum_range_succ, Finset.sum_range_succ, Finset.sum_range_zero, zero_add,
    show bigSpectrum2.harmonics.getD 0 ⟨0, 0⟩ = ⟨1, Real.pi / 2⟩ from rfl,
    show bigSpectrum2.harmonics.getD 1 ⟨0, 0⟩ = ⟨1 / 2, Real.pi / 2⟩ from rfl]
  show (if (0 : ℝ) < 1 then (1 : ℝ) * Real.sin ((2 * Real.pi * (((0 : ℕ) : ℝ) + 1) *
      (((1 : ℕ) : ℕ) : ℝ)) / ((2 : ℕ) : ℝ) + Real.pi / 2) else 0) +
    (if (0 : ℝ) < 1 / 2 then (1 / 2 : ℝ) * Real.sin ((2 * Real.pi * (((1 : ℕ) : ℝ) + 1) *
      (((1 : ℕ) : ℕ) : ℝ)) / ((2 : ℕ) : ℝ) + Real.pi / 2) else 0) = -(1 / 2)
  rw [if_pos (by norm_num : (0 : ℝ) < 1), if_pos (by norm_num : (0 : ℝ) < 1 / 2)]
  have ha0 : (2 * Real.pi * (((0 : ℕ) : ℝ) + 1) * (((1 : ℕ) : ℕ) : ℝ)) / ((2 : ℕ) : ℝ) +
      Real.pi / 2 = Real.pi + Real.pi / 2 := by
    push_cast
    ring
  have ha1 : (2 * Real.pi * (((1 : ℕ) : ℝ) + 1) * (((1 : ℕ) : ℕ) : ℝ)) / ((2 : ℕ) : ℝ) +
      Real.pi / 2 = 2 * Real.pi + Real.pi / 2 := by
    push_cast
    ring
  have hsin0 : Real.sin (Real.pi + Real.pi / 2) = -1 := by
    rw [Real.sin_add, Real.sin_pi, Real.cos_pi, Real.sin_pi_div_two]
    ring
  have hsin1 : Real.sin (2 * Real.pi + Real.pi / 2) = 1 := by
    rw [Real.sin_add, Real.sin_two_pi, Real.cos_two_pi, Real.sin_pi_div_two]
    ring
  rw [ha0, ha1, hsin0, hsin1]
  norm_num

/-- C2 counterexample: for the two-harmonic spectrum with amplitudes
1 and 1/2 (both phase π/2) at sample count 2, the additive sums are
[3/2, -1/2]; the code clamps them to [1, -1/2] before normalize (which
then leaves them alone, peak 1), while the claimed normalize of the
raw sums divides by 3/2 and yields [1, -1/3]: the results differ at
sample 1. -/
theorem toTimeDomain_unclamped_counterexample :
    WaveformTransform.toTimeDomain bigSpectrum2 2 ≠
      .ok (Waveform.normalize (specRawWaveform bigSpectrum2 2)) := by
  intro hcontra
  have hlhs : WaveformTransform.toTimeDomain bigSpectrum2 2 =
      .ok (Waveform.normalize ⟨2, [clamp (-1) 1 (synthValue bigSpectrum2 2 0),
        clamp (-1) 1 (synthValue bigSpectrum2 2 1)], by simp⟩) := by
    rw [WaveformTransform.toTimeDomain,
      show Waveform.make 2 = .ok ⟨2, List.replicate 2 0, by simp⟩ from by
        rw [Waveform.make, if_pos (by decide)],
      Except.map]
    rfl
  have hclamp0 : clamp (-1) 1 (synthValue bigSpectrum2 2 0) = 1 := by
    rw [synthValue_bigSpectrum2_zero, clamp]
    norm_num
  have hclamp1 : clamp (-1) 1 (synthValue bigSpectrum2 2 1) = -(1 / 2) := by
    rw [synthValue_bigSpectrum2_one, clamp]
    norm_num
  rw [hclamp0, hclamp1] at hlhs
  have hmaxl : (⟨2, [1, -(1 / 2)], by simp⟩ : Waveform).maxAbs = 1 := by
    show List.foldl (fun m s => max m |s|) 0 [1, -(1 / 2)] = 1
    rw [List.foldl_cons, List.foldl_cons, List.foldl_nil]
    rw [show |(1 : ℝ)| = 1 from abs_one, show |(-(1 / 2) : ℝ)| = 1 / 2 from by
      rw [abs_neg]; exact abs_of_pos (by norm_num)]
    norm_num
  have hnorml : Waveform.normalize ⟨2, [1, -(1 / 2)], by simp⟩ =
      ⟨2, [1, -(1 / 2)], by simp⟩ := by
    rw [Waveform.normalize, if_neg (by rw [hmaxl]; intro hc; exact hc.2 rfl)]
  rw [hnorml] at hlhs
  have hraw : specRawWaveform bigSpectrum2 2 = ⟨2, [3 / 2, -(1 / 2)], by simp⟩ := by
    refine Waveform.ext_fields _ _ rfl ?_
    show (List.range 2).map (fun s => specAdditiveSum bigSpectrum2 2 s) = [3 / 2, -(1 / 2)]
    rw [show List.range 2 = [0, 1] from rfl, List.map_cons, List.map_cons, List.map_nil,
      ← synthValue_eq_specAdditiveSum bigSpectrum2
        (by intro hm hmem; fin_cases hmem <;> norm_num) 2 0,
      ← synthValue_eq_specAdditiveSum bigSpectrum2
        (by intro hm hmem; fin_cases hmem <;> norm_num) 2 1,
      synthValue_bigSpectrum2_zero, synthValue_bigSpectrum2_one]
  have hmaxr : (⟨2, [3 / 2, -(1 / 2)], by simp⟩ : Waveform).maxAbs = 3 / 2 := by
    show List.foldl (fun m s => max m |s|) 0 [3 / 2, -(1 / 2)] = 3 / 2
    rw [List.foldl_cons, List.foldl_cons, List.foldl_nil]
    rw [show |(3 / 2 : ℝ)| = 3 / 2 from abs_of_pos (by norm_num),
      show |(-(1 / 2) : ℝ)| = 1 / 2 from by
        rw [abs_neg]; exact abs_of_pos (by norm_num)]
    norm_num
  have hnormr : Waveform.normalize ⟨2, [3 / 2, -(1 / 2)], by simp⟩ =
      ⟨2, [1, -(1 / 3)], by simp⟩ := by
    rw [Waveform.normalize, if_pos (by rw [hmaxr]; norm_num)]
    refine Waveform.ext_fields _ _ rfl ?_
    show List.map (fun s => s / (⟨2, [3 / 2, -(1 / 2)], by simp⟩ : Waveform).maxAbs)
      [3 / 2, -(1 / 2)] = [1, -(1 / 3)]
    rw [hmaxr, List.map_cons, List.map_cons, List.map_nil]
    norm_num
  rw [hraw, hnormr] at hcontra
  rw [hlhs] at hcontra
  have hval : (-(1 / 2) : ℝ) = -(1 / 3) := by
    have hlists := congrArg Waveform.samples (Except.ok.inj hcontra)
    simpa using congrArg (fun l => l.getD 1 0) hlists
  norm_num at hval

end
